import Mathlib

/-!
Verification development for the RAG-pipeline repository.

Shallow embedding of the data model and operations of:
  app/utils/text_utils.py, app/services/rag/citation_manager.py,
  app/services/rag/mmr_selector.py, app/services/chunking.py,
  app/services/retrieval/hybrid_retriever.py,
  app/services/retrieval/keyword_retriever.py,
  app/utils/prompts.py, app/services/rag/query_service.py.

Scores and float arithmetic are modelled over ℚ (the exact values the
Python code approximates in IEEE doubles); machine strings are Lean
`String`s (Python `len`, slicing and `split` act on code points, as the
Lean counterparts do).  `estimate_tokens`'s `int(n * 1.3)` equals
`13 * n / 10` in integer arithmetic for all realistic sizes, and
`int(m / 1.3)` equals `10 * m / 13`; the embedding uses those exact
integer forms.
-/

namespace RagPipeline

/-- A chunk row as the retrieval layer sees it: `chunk.id`,
`chunk.document_id`, `chunk.document.filename`, `chunk.page_number`,
`chunk.content`. -/
structure Chunk where
  id : Nat
  document_id : Nat
  filename : String
  page_number : Option Nat
  content : String
deriving DecidableEq, Repr, Inhabited

/-- `RetrievalResult` from app/services/retrieval/base.py. -/
structure RetrievalResult where
  chunk : Chunk
  score : ℚ
  method : String
deriving DecidableEq, Repr, Inhabited

/-- `CitationResponse` (app/schemas/query.py) as filled in by
`CitationManager.extract_citations`. -/
structure CitationResponse where
  document_id : Nat
  document_name : String
  page : Option Nat
  chunk_id : Nat
  snippet : String
  relevance_score : ℚ
deriving DecidableEq, Repr

/-! ### text_utils.py -/

/-- Character-level worker for Python `str.split()` (no argument):
runs of non-whitespace become words, empty pieces are dropped. -/
def splitWsGo : List Char → List Char → List String
  | [], cur => if cur.isEmpty then [] else [⟨cur⟩]
  | c :: cs, cur =>
    if c.isWhitespace then
      if cur.isEmpty then splitWsGo cs [] else (⟨cur⟩ : String) :: splitWsGo cs []
    else splitWsGo cs (cur ++ [c])

/-- Python `text.split()`: split on whitespace, dropping empty pieces. -/
def pySplit (s : String) : List String :=
  splitWsGo s.data []

/-- Python `str.strip()`: drop leading and trailing whitespace. -/
def pyStrip (s : String) : String :=
  ⟨((s.data.dropWhile Char.isWhitespace).reverse.dropWhile Char.isWhitespace).reverse⟩

/-- Python `str.lower()` (character-wise). -/
def pyLower (s : String) : String :=
  ⟨s.data.map Char.toLower⟩

/-- Character-level worker for Python `str.split(sep)` with a single
separator character: keeps empty pieces, as Python does. -/
def splitCharGo (sep : Char) : List Char → List Char → List String
  | [], cur => [⟨cur⟩]
  | c :: cs, cur =>
    if c = sep then (⟨cur⟩ : String) :: splitCharGo sep cs []
    else splitCharGo sep cs (cur ++ [c])

/-- Python `text.split('.')`. -/
def pySplitOn (sep : Char) (s : String) : List String :=
  splitCharGo sep s.data []

/-- Python slicing `s[:n]` (by code points). -/
def pyTake (s : String) (n : Nat) : String :=
  ⟨s.data.take n⟩

/-- `estimate_tokens`: `int(len(text.split()) * 1.3)`, which equals
`13 * n / 10` in exact integer arithmetic. -/
def estimate_tokens (text : String) : Nat :=
  13 * (pySplit text).length / 10

/-- `truncate_text`: keep the text if its estimate fits, otherwise keep
`int(max_tokens / 1.3)` words (equal to `10 * max_tokens / 13`) and
append `"..."`. -/
def truncate_text (text : String) (max_tokens : Nat) : String :=
  if estimate_tokens text ≤ max_tokens then text
  else String.intercalate " " ((pySplit text).take (10 * max_tokens / 13)) ++ "..."

/-- Leading run of decimal digits of a character list. -/
def takeDigits : List Char → List Char × List Char
  | [] => ([], [])
  | c :: cs =>
    if c.isDigit then
      let p := takeDigits cs
      (c :: p.1, p.2)
    else ([], c :: cs)

/-- Numeric value of a digit run (most significant first). -/
def digitsToNat (ds : List Char) : Nat :=
  ds.foldl (fun n c => 10 * n + (c.toNat - 48)) 0

/-- Strip an exact literal from the front of a character list. -/
def matchLiteral : List Char → List Char → Option (List Char)
  | [], rest => some rest
  | _ :: _, [] => none
  | p :: ps, c :: cs => if c = p then matchLiteral ps cs else none

/-- One pass of `re.findall(r"\[Source (\d+)\]", text)`: scan left to
right; on a full match emit the digit group's value and resume after the
closing bracket, otherwise resume one character further.  The fuel
argument bounds the recursion by the input length. -/
def scanCitations : Nat → List Char → List Nat
  | 0, _ => []
  | _, [] => []
  | fuel + 1, c :: cs =>
    if c = '[' then
      match matchLiteral "Source ".toList cs with
      | some r =>
        let p := takeDigits r
        if p.1 ≠ [] then
          match p.2 with
          | ']' :: r2 => digitsToNat p.1 :: scanCitations fuel r2
          | _ => scanCitations fuel cs
        else scanCitations fuel cs
      | none => scanCitations fuel cs
    else scanCitations fuel cs

/-- `extract_citations_from_text`: all `[Source N]` marker numbers, in
order of occurrence.  The regex `\d+` matches any digit run, including
`"0"`. -/
def extract_citations_from_text (text : String) : List Nat :=
  scanCitations text.length text.data

/-- `extract_relevant_snippet`: pick the sentence (split on `'.'`) with
the largest number of distinct lowercase words shared with the answer,
falling back to the first sentence, truncated to `snippet_length`. -/
def extract_relevant_snippet (chunk_content answer_text : String)
    (snippet_length : Nat) : String :=
  let answerWords := (pySplit (pyLower answer_text)).dedup
  let sentences := pySplitOn '.' chunk_content
  let best := (sentences.foldl (fun (acc : String × Nat) sentRaw =>
    let sent := pyStrip sentRaw
    if sent = "" then acc
    else
      let sw := (pySplit (pyLower sent)).dedup
      let overlap := (sw.filter (fun w => w ∈ answerWords)).length
      if acc.2 < overlap then (sent, overlap) else acc) ("", 0)).1
  let best := if best = "" ∧ sentences ≠ [] then pyStrip (sentences.headD "") else best
  if snippet_length < best.length then pyTake best snippet_length ++ "..." else best

/-! ### citation_manager.py -/

/-- Python list indexing: nonnegative indices from the front, negative
indices from the back, `none` for `IndexError`. -/
def pyGet (l : List RetrievalResult) (i : Int) : Option RetrievalResult :=
  let j : Int := if i < 0 then (l.length : Int) + i else i
  if j < 0 then none else l.get? j.toNat

/-- Ascending insertion into a sorted list. -/
def insertAsc (n : Nat) : List Nat → List Nat
  | [] => [n]
  | m :: ms => if n ≤ m then n :: m :: ms else m :: insertAsc n ms

/-- Python `sorted(set(l))`: the distinct elements in ascending order. -/
def sortedSet (l : List Nat) : List Nat :=
  l.dedup.foldr insertAsc []

/-- Loop body of `CitationManager.extract_citations`, inside the `try`:
for each distinct marker number in ascending order, `chunk_index =
citation_num - 1`; the guard is only `chunk_index < len(chunks_used)`,
so the access uses Python indexing (negative values reach from the
back); `none` models an uncaught `IndexError`. -/
def extractCitationsCore (answer_text : String)
    (chunks_used : List RetrievalResult) : Option (List CitationResponse) :=
  let nums := extract_citations_from_text answer_text
  (sortedSet nums).foldlM (fun acc n =>
    let chunk_index : Int := (n : Int) - 1
    if chunk_index < (chunks_used.length : Int) then
      match pyGet chunks_used chunk_index with
      | some result =>
        let c := result.chunk
        let snippet := extract_relevant_snippet c.content answer_text 150
        some (acc ++ [⟨c.document_id, c.filename, c.page_number, c.id,
                       snippet, result.score⟩])
      | none => none
    else some acc) []

/-- `CitationManager.extract_citations`: any exception in the body is
caught and an empty list returned. -/
def extract_citations (answer_text : String)
    (chunks_used : List RetrievalResult) : List CitationResponse :=
  (extractCitationsCore answer_text chunks_used).getD []

/-! ### mmr_selector.py -/

/-- `MMRSelector._get_chunk_embedding`: the implementation always
returns the empty list ("we'll skip MMR if embeddings aren't readily
available"). -/
def getChunkEmbedding (_ : RetrievalResult) : List ℚ := []

/-- Python `max(remaining, key=lambda r: r.score)`: the earliest element
of maximal score (later elements replace only on strictly greater). -/
def pyMaxByScore : List RetrievalResult → Option RetrievalResult
  | [] => none
  | x :: xs => some (xs.foldl (fun b y => if b.score < y.score then y else b) x)

/-- Python `list.remove`: drop the first matching element. -/
def listRemove : List RetrievalResult → RetrievalResult → List RetrievalResult
  | [], _ => []
  | x :: xs, a => if x = a then xs else x :: listRemove xs a

/-- Inner candidate scan of `MMRSelector.select` (the `else` arm):
`best_score` starts at `-inf`, every candidate whose embedding is empty
is skipped, and otherwise the MMR score `λ·relevance − (1−λ)·maxSim` is
maximised.  `sim` stands for `cosine_similarity`. -/
def mmrInner (lam : ℚ) (sim : List ℚ → List ℚ → ℚ)
    (selected remaining : List RetrievalResult) : Option RetrievalResult :=
  (remaining.foldl (fun (acc : Option (RetrievalResult × ℚ)) r =>
    let emb := getChunkEmbedding r
    if emb.isEmpty then acc
    else
      let relevance := r.score
      let maxSim := selected.foldl (fun m s =>
        let se := getChunkEmbedding s
        if se.isEmpty then m else max m (sim emb se)) 0
      let mmrScore := lam * relevance - (1 - lam) * maxSim
      match acc with
      | none => some (r, mmrScore)
      | some (b, bs) => if bs < mmrScore then some (r, mmrScore) else some (b, bs))
    none).map (fun p => p.1)

/-- The `while len(selected) < top_k and remaining` loop of
`MMRSelector.select`.  Each productive iteration removes one element
from `remaining`, so fuel `remaining.length` is exact; a `none` from the
inner scan is the `break`. -/
def mmrLoop (lam : ℚ) (sim : List ℚ → List ℚ → ℚ) :
    Nat → List RetrievalResult → List RetrievalResult → Nat → List RetrievalResult
  | 0, selected, _, _ => selected
  | fuel + 1, selected, remaining, top_k =>
    if selected.length < top_k ∧ remaining ≠ [] then
      if selected.isEmpty then
        match pyMaxByScore remaining with
        | some best => mmrLoop lam sim fuel (selected ++ [best]) (listRemove remaining best) top_k
        | none => selected
      else
        match mmrInner lam sim selected remaining with
        | some best => mmrLoop lam sim fuel (selected ++ [best]) (listRemove remaining best) top_k
        | none => selected
    else selected

/-- `MMRSelector.select`: empty input returns `[]`; when the input fits
inside `top_k` it is returned unchanged; otherwise the MMR loop runs. -/
def mmrSelect (lam : ℚ) (sim : List ℚ → List ℚ → ℚ)
    (results : List RetrievalResult) (top_k : Nat) : List RetrievalResult :=
  if results.isEmpty then []
  else if results.length ≤ top_k then results
  else mmrLoop lam sim results.length [] results top_k

/-! ### chunking.py -/

/-- `ChunkData` (the `page_number`/`metadata` fields are passed through
from the call unchanged and carry no claim content, so they are not
modelled). -/
structure ChunkData where
  content : String
  chunk_index : Nat
  token_count : Nat
  start_char : Nat
  end_char : Nat
deriving DecidableEq, Repr

/-- A sentence with its precomputed character span and token count, as
built by the `sentence_positions` loop of
`create_chunks_with_overlap`. -/
structure SentInfo where
  text : String
  start : Nat
  stop : Nat
  tokens : Nat
deriving DecidableEq, Repr

/-- Worker for the position-tracking loop: given the running
`char_position` and `text_length`, each sentence starts at the current
position and the position advances by its length plus one joining
space; `text_length` becomes `char_position - 1` after each
sentence. -/
def buildPositionsGo : List (String × Nat) → Nat → Nat → List SentInfo × Nat × Nat
  | [], pos, tl => ([], pos, tl)
  | s :: rest, pos, _tl =>
    let r := buildPositionsGo rest (pos + s.1.length + 1) (pos + s.1.length)
    (⟨s.1, pos, pos + s.1.length, s.2⟩ :: r.1, r.2)

/-- The position-tracking loop of `create_chunks_with_overlap`:
returns the sentence infos, the final `char_position` and the final
`text_length` (both `0` for an empty sentence list). -/
def buildPositions (sents : List (String × Nat)) : List SentInfo × Nat × Nat :=
  buildPositionsGo sents 0 0

/-- The backward overlap walk of `create_chunks_with_overlap` (lines
213-225), over the already-consumed sentences in reverse order.  The
loop-head check `overlap_tokens <= chunk_overlap` is modelled by the
outer `if`; when it fails the walk stops and `current_start_char` is
read from `sentence_positions[j + 1]`, the previously examined
sentence.  When the list is exhausted (`j = -1`) the start falls back
to `0`.  Returns (overlap token count, seeded sentences in original
order, new `current_start_char`). -/
def overlapWalk (ov : Nat) : List SentInfo → Nat → List String → Option SentInfo →
    Nat × List String × Nat
  | [], acc, sel, _ => (acc, sel, 0)
  | s :: rest, acc, sel, lastEx =>
    if acc ≤ ov then
      if acc + s.tokens ≤ ov then
        overlapWalk ov rest (acc + s.tokens) (s.text :: sel) (some s)
      else overlapWalk ov rest acc sel (some s)
    else
      (acc, sel, match lastEx with | some t => t.start | none => 0)

/-- Main packing loop of `create_chunks_with_overlap`: `cs` is
`chunk_size`, `ov` is `chunk_overlap`, `ms` is `min_chunk_size`.  The
emitted `token_count` is `min(current_tokens, int(chunk_size * 1.2))`,
i.e. `cs * 12 / 10`.  The trailing chunk is kept only when it reaches
`min_chunk_size` or no other chunk exists. -/
def chunkGo (cs ov ms textLen charPos : Nat) :
    List SentInfo → List SentInfo → List String → Nat → Nat → Nat →
    List ChunkData → List ChunkData
  | [], _, cur, curTok, curStart, idx, acc =>
    if cur ≠ [] ∧ (ms ≤ curTok ∨ acc = []) then
      acc ++ [⟨String.intercalate " " cur, idx, min curTok (cs * 12 / 10),
              curStart, min (charPos - 1) textLen⟩]
    else acc
  | s :: rest, prevRev, cur, curTok, curStart, idx, acc =>
    if cs < curTok + s.tokens ∧ cur ≠ [] then
      let c : ChunkData := ⟨String.intercalate " " cur, idx,
        min curTok (cs * 12 / 10), curStart, min s.start textLen⟩
      let w := overlapWalk ov prevRev 0 [] none
      chunkGo cs ov ms textLen charPos rest (s :: prevRev)
        (w.2.1 ++ [s.text]) (w.1 + s.tokens) w.2.2 (idx + 1) (acc ++ [c])
    else
      chunkGo cs ov ms textLen charPos rest (s :: prevRev)
        (cur ++ [s.text]) (curTok + s.tokens) curStart idx acc

/-- `TokenChunker.create_chunks_with_overlap`, with the sentence list
given as (text, token count) pairs (token counts come from tiktoken,
which is external to the repository). -/
def create_chunks_with_overlap (cs ov ms : Nat)
    (sents : List (String × Nat)) : List ChunkData :=
  let bp := buildPositions sents
  chunkGo cs ov ms bp.2.2 bp.2.1 bp.1 [] [] 0 0 0 []

/-! ### hybrid_retriever.py -/

/-- RRF weight of an entry at 0-based `rank`: `1.0 / (rrf_k + rank + 1)`
(exact rational model of the float computation). -/
def rrfWeight (k rank : Nat) : ℚ :=
  1 / ((k : ℚ) + (rank : ℚ) + 1)

/-- Lookup in an insertion-ordered dict modelled as an association
list (first entry with the key). -/
def dLookup : List (Nat × ℚ) → Nat → Option ℚ
  | [], _ => none
  | p :: rest, key => if p.1 = key then some p.2 else dLookup rest key

/-- `d[key] = v`: overwrite in place, else append (Python dict
assignment preserves insertion order). -/
def dSet : List (Nat × ℚ) → Nat → ℚ → List (Nat × ℚ)
  | [], key, v => [(key, v)]
  | p :: rest, key, v =>
    if p.1 = key then (key, v) :: rest else p :: dSet rest key v

/-- `d[key] += v` for a present key, append otherwise. -/
def dAdd : List (Nat × ℚ) → Nat → ℚ → List (Nat × ℚ)
  | [], key, v => [(key, v)]
  | p :: rest, key, v =>
    if p.1 = key then (p.1, p.2 + v) :: rest else p :: dAdd rest key v

/-- `chunk_map[key] = result` (overwrite in place, else append). -/
def dSetR : List (Nat × RetrievalResult) → Nat → RetrievalResult →
    List (Nat × RetrievalResult)
  | [], key, v => [(key, v)]
  | p :: rest, key, v =>
    if p.1 = key then (key, v) :: rest else p :: dSetR rest key v

/-- Lookup in the chunk map. -/
def dLookupR : List (Nat × RetrievalResult) → Nat → Option RetrievalResult
  | [], _ => none
  | p :: rest, key => if p.1 = key then some p.2 else dLookupR rest key

/-- The `for rank, result in enumerate(semantic_results)` loop:
`combined_scores[id] = weight(rank)` and `chunk_map[id] = result`. -/
def semFold (k : Nat) : List RetrievalResult → List (Nat × ℚ) →
    List (Nat × RetrievalResult) → Nat → List (Nat × ℚ) × List (Nat × RetrievalResult)
  | [], d, m, _ => (d, m)
  | r :: rest, d, m, rank =>
    semFold k rest (dSet d r.chunk.id (rrfWeight k rank))
      (dSetR m r.chunk.id r) (rank + 1)

/-- The keyword loop: accumulate into an existing entry, otherwise
insert into both maps. -/
def kwFold (k : Nat) : List RetrievalResult → List (Nat × ℚ) →
    List (Nat × RetrievalResult) → Nat → List (Nat × ℚ) × List (Nat × RetrievalResult)
  | [], d, m, _ => (d, m)
  | r :: rest, d, m, rank =>
    if (dLookup d r.chunk.id).isSome then
      kwFold k rest (dAdd d r.chunk.id (rrfWeight k rank)) m (rank + 1)
    else
      kwFold k rest (d ++ [(r.chunk.id, rrfWeight k rank)])
        (m ++ [(r.chunk.id, r)]) (rank + 1)

/-- Stable descending insertion by a rational key: an earlier element
stays before any later element of equal key, matching Python's stable
`sorted(..., reverse=True)`. -/
def insertDescBy (key : Nat × ℚ → ℚ) (x : Nat × ℚ) :
    List (Nat × ℚ) → List (Nat × ℚ)
  | [] => [x]
  | y :: ys => if key y ≤ key x then x :: y :: ys else y :: insertDescBy key x ys

/-- Python `sorted(items, key=score, reverse=True)` (stable). -/
def pySortedDesc (l : List (Nat × ℚ)) : List (Nat × ℚ) :=
  l.foldr (insertDescBy (fun p => p.2)) []

/-- `HybridRetriever._reciprocal_rank_fusion`: build the combined score
dict from both ranked lists, sort by fused score descending, and emit
`RetrievalResult`s with method `"hybrid"` carrying the chunk from the
chunk map. -/
def reciprocal_rank_fusion (k : Nat)
    (semantic_results keyword_results : List RetrievalResult) :
    List RetrievalResult :=
  let sm := semFold k semantic_results [] [] 0
  let km := kwFold k keyword_results sm.1 sm.2 0
  let sortedIds := pySortedDesc km.1
  sortedIds.map (fun p =>
    match dLookupR km.2 p.1 with
    | some r => ⟨r.chunk, p.2, "hybrid"⟩
    | none => ⟨default, p.2, "hybrid"⟩)

/-! ### keyword_retriever.py -/

/-- Stable descending sort of score indices, as in
`sorted(range(len(scores)), key=lambda i: scores[i], reverse=True)`. -/
def insertIdxDesc (scoreAt : Nat → ℚ) (x : Nat) : List Nat → List Nat
  | [] => [x]
  | y :: ys => if scoreAt y ≤ scoreAt x then x :: y :: ys else y :: insertIdxDesc scoreAt x ys

/-- `KeywordRetriever.retrieve` from the point the BM25 scores are in
hand: the BM25 library (`rank_bm25`) is external, so the score list is
a parameter aligned with `chunks`.  Of the top `top_k` indices by score
only those with score strictly positive are kept. -/
def keywordRetrieve (chunks : List Chunk) (scores : List ℚ) (top_k : Nat) :
    List RetrievalResult :=
  if chunks.isEmpty then []
  else
    (((List.range scores.length).foldr
        (insertIdxDesc (fun i => scores.getD i 0)) []).take top_k).foldl
      (fun acc idx =>
        if 0 < scores.getD idx 0 then
          acc ++ [⟨chunks.getD idx default, scores.getD idx 0, "keyword"⟩]
        else acc) []

/-! ### prompts.py -/

/-- `format_chunk_for_context`.  Python renders `chunk.page_number if
chunk.page_number else 'N/A'`, so a missing page and page `0` both show
as `N/A`. -/
def format_chunk_for_context (c : Chunk) (index : Nat) : String :=
  "[Source " ++ toString index ++ "]\nDocument: " ++ c.filename ++
  "\nPage: " ++ (match c.page_number with
                 | some p => if p = 0 then "N/A" else toString p
                 | none => "N/A") ++
  "\nContent: " ++ c.content ++ "\n---\n"

/-- `format_system_prompt`: the fixed template with `context` and
`query` substituted. -/
def format_system_prompt (query context : String) : String :=
  "You are a helpful AI assistant that answers questions based on provided document excerpts.\n\nINSTRUCTIONS:\n1. Answer ONLY based on the provided context\n2. If the context doesn't contain enough information, say \"I don't have enough information to answer this question based on the provided documents.\"\n3. Always cite your sources using [Source X] format where X is the source number\n4. Be concise but comprehensive\n5. If multiple sources support the same point, cite all relevant sources\n6. Do not make up information not present in the context\n7. Structure your answer clearly with proper formatting\n\nCONTEXT:\n" ++ context ++ "\n\nUSER QUESTION: " ++ query ++ "\n\nPlease provide a well-structured answer with proper citations."

/-! ### query_service.py -/

/-- Loop of `QueryService._prepare_context`: `i` is the 0-based
`enumerate` counter, `total` the running token estimate over the whole
blocks appended so far, `parts` the accumulated blocks.  A block that
would overflow is replaced, when more than 100 tokens of budget remain,
by a re-formatted block whose content went through `truncate_text`, and
the loop stops; otherwise the loop stops without it.  Returns the parts
together with the final running total. -/
def prepareContextGo (maxTok : Nat) :
    List RetrievalResult → Nat → Nat → List String → List String × Nat
  | [], _, total, parts => (parts, total)
  | r :: rest, i, total, parts =>
    let chunkText := format_chunk_for_context r.chunk (i + 1)
    let chunkTokens := estimate_tokens chunkText
    if maxTok < total + chunkTokens then
      let remaining := maxTok - total
      if 100 < remaining then
        (parts ++ [format_chunk_for_context
          { r.chunk with content := truncate_text r.chunk.content remaining } (i + 1)],
         total)
      else (parts, total)
    else prepareContextGo maxTok rest (i + 1) (total + chunkTokens)
      (parts ++ [chunkText])

/-- `QueryService._prepare_context`: the parts joined with newlines. -/
def prepare_context (chunks : List RetrievalResult) (maxTok : Nat) : String :=
  String.intercalate "\n" (prepareContextGo maxTok chunks 0 0 []).1

/-- Reference recursion written from the amended claim's words: append
whole formatted blocks while the running estimate stays within the
budget; at the first overflow append the truncated block exactly when
more than 100 tokens of budget remain, and stop. -/
def prepareContextRef (maxTok : Nat) :
    List RetrievalResult → Nat → Nat → List String
  | [], _, _ => []
  | r :: rest, i, total =>
    let chunkText := format_chunk_for_context r.chunk (i + 1)
    let chunkTokens := estimate_tokens chunkText
    if total + chunkTokens ≤ maxTok then
      chunkText :: prepareContextRef maxTok rest (i + 1) (total + chunkTokens)
    else if 100 < maxTok - total then
      [format_chunk_for_context
        { r.chunk with content := truncate_text r.chunk.content (maxTok - total) } (i + 1)]
    else []

/-- `QueryRequest` (app/schemas/query.py): the fields `process_query`
reads. -/
structure QueryRequest where
  query : String
  upload_id : Option Nat
  top_k : Nat
  mmr_lambda : ℚ
  temperature : Option ℚ
deriving DecidableEq, Repr

/-- `ChunkUsed` rows of the response. -/
structure ChunkUsed where
  chunk_id : Nat
  relevance_score : ℚ
  retrieval_method : String
deriving DecidableEq, Repr

/-- The counts of `QueryMetadata` (wall-clock timings and provider
constants carry no claim content). -/
structure QueryMetadata where
  chunks_retrieved : Nat
  chunks_used : Nat
deriving DecidableEq, Repr

/-- `QueryResponse` as `process_query` builds it. -/
structure QueryResponse where
  query : String
  answer : String
  citations : List CitationResponse
  used_chunks : List ChunkUsed
  metadata : QueryMetadata
deriving DecidableEq, Repr

/-- The `Query` ORM row written by `QueryService._log_query`. -/
structure QueryLogRecord where
  query_text : String
  upload_id : Option Nat
  top_k : Nat
  mmr_lambda : ℚ
  response : String
  chunks_used : List Nat
deriving DecidableEq, Repr

/-- Everything observable about one `process_query` run: the response,
the persisted log row (absent on the no-results path, which returns
before step 7), the assembled context, and how many times the LLM
generator was invoked. -/
structure ProcOutcome where
  response : QueryResponse
  logged : Option QueryLogRecord
  context : String
  genCalls : Nat
deriving Repr

/-- The fixed no-results answer of `_create_no_results_response`. -/
def noResultsAnswer : String :=
  "I don't have enough information to answer this question based on the provided documents."

/-- `QueryService._create_no_results_response`: a complete response with
the fixed answer and empty citation and usage lists. -/
def createNoResultsResponse (req : QueryRequest) : QueryResponse :=
  ⟨req.query, noResultsAnswer, [], [], ⟨0, 0⟩⟩

/-- `QueryService.process_query`: retrieval and generation are external
effects, supplied as functions (`retrieve` takes the query, `top_k` and
`upload_id`; `gen` takes the prompt and the temperature).  When
retrieval is empty the no-results response is returned before the
generator runs; otherwise the selected chunks are the first `top_k`
retrieved hits (the "MMR Selection" step is `retrieved[:top_k]`; the
`MMRSelector` is never called), the context, prompt, answer, citations
and response are built, and the query is logged with the request's
`mmr_lambda`. -/
def processQuery (req : QueryRequest)
    (retrieve : String → Nat → Option Nat → List RetrievalResult)
    (maxCtx : Nat) (ragTemperature : ℚ)
    (gen : String → ℚ → String) : ProcOutcome :=
  let retrieved := retrieve req.query req.top_k req.upload_id
  if retrieved.isEmpty then
    ⟨createNoResultsResponse req, none, "", 0⟩
  else
    let selected := retrieved.take req.top_k
    let context := prepare_context selected maxCtx
    let prompt := format_system_prompt req.query context
    let temperature := req.temperature.getD ragTemperature
    let answer := gen prompt temperature
    let citations := extract_citations answer selected
    let response : QueryResponse :=
      ⟨req.query, answer, citations,
       selected.map (fun r => ⟨r.chunk.id, r.score, r.method⟩),
       ⟨retrieved.length, selected.length⟩⟩
    let logRec : QueryLogRecord :=
      ⟨req.query, req.upload_id, req.top_k, req.mmr_lambda, answer,
       response.used_chunks.map (fun c => c.chunk_id)⟩
    ⟨response, some logRec, context, 1⟩

/-! ### Spec-side definitions used in claim statements -/

/-- The claim's per-list RRF contribution of a Segment: the weight of
its (first) rank in the list, `0` when absent. -/
def rrfContribAux (k : Nat) : Nat → List RetrievalResult → Nat → ℚ
  | _, [], _ => 0
  | rank, r :: rest, id =>
    if r.chunk.id = id then rrfWeight k rank else rrfContribAux k (rank + 1) rest id

/-- Contribution of the list to a Segment's fused score, rank starting
at 0 in list order. -/
def rrfContrib (k : Nat) (l : List RetrievalResult) (id : Nat) : ℚ :=
  rrfContribAux k 0 l id

/-- Total token count of a run of (text, tokens) sentences. -/
def sumTokens (l : List (String × Nat)) : Nat :=
  (l.map Prod.snd).sum

/-- Projection of a positioned sentence back to its (text, tokens)
pair. -/
def sentPair (si : SentInfo) : String × Nat :=
  (si.text, si.tokens)

/-! ## Theorems -/

/-- C1: the claim states that a `[Source N]` marker with `N` outside
`[1, len(context)]` never produces a CitationRecord, in particular
`N = 0`.  The code only guards `chunk_index < len(chunks_used)`;
for `N = 0` the index is `-1`, which passes the guard and, by Python
negative indexing, reaches the *last* element of `chunks_used`.
Evaluating the embedded code: the answer `"See [Source 0]"` against a
single context hit yields one CitationRecord — built from that hit —
contradicting the claim (and the spec's intent stated with the bounds
check). -/
theorem citation_marker_zero_produces_record :
    extract_citations "See [Source 0]"
      [⟨⟨7, 1, "doc.pdf", some 2, "Alpha beta."⟩, 1, "hybrid"⟩] =
    [⟨1, "doc.pdf", some 2, 7, "Alpha beta", 1⟩] := by decide

/-- C2: the claim states that with `lambda = 1.0` and more hits than
`top_k`, `MMRSelector.select` returns exactly `top_k` hits in pure
relevance order.  In the code `_get_chunk_embedding` always returns
`[]`, so after the first (highest-relevance) pick every remaining
candidate is skipped by `if not chunk_embedding: continue`, the inner
scan yields no best candidate, and the loop breaks.  Evaluating the
embedded code on three hits with scores 3, 2, 1 and `top_k = 2`: only
the single top hit is returned, not two — contradicting the claim and
the code's own comment that it would "just return top-k by score". -/
theorem mmr_select_returns_single_hit :
    mmrSelect 1 (fun _ _ => 0)
      [⟨⟨1, 1, "f.txt", none, "x"⟩, 3, "semantic"⟩,
       ⟨⟨2, 1, "f.txt", none, "y"⟩, 2, "semantic"⟩,
       ⟨⟨3, 1, "f.txt", none, "z"⟩, 1, "semantic"⟩] 2 =
    [⟨⟨1, 1, "f.txt", none, "x"⟩, 3, "semantic"⟩] := by decide

/-- C3: the claim states that on overflow the next segment is seeded
with exactly the maximal contiguous suffix of consumed sentences whose
token total fits `overlapTokens`, and that the new segment's
`start_char` is the start of the first seeded sentence.  In the code
the backward walk's guard `overlap_tokens <= chunk_overlap` can never
fail (tokens are only accumulated while they fit), so `j` always
reaches `-1`: `current_start_char` is always set to the `else` value
`0`, and the walk skips a non-fitting sentence and keeps collecting
earlier ones, so the seed need not be contiguous.  Evaluating the
embedded code with `chunk_size = 6`, `overlap = 3` on sentences with
token counts 1, 5, 2: consumed sentences at the overflow are
`["a", "bbbbb"]`, whose maximal fitting contiguous suffix is empty
(5 > 3), yet the second chunk is seeded with the *first* sentence
(`"a cc"`) and starts at `0` instead of at `"cc"`'s offset 8. -/
theorem chunk_overlap_seed_and_start_bug :
    create_chunks_with_overlap 6 3 1 [("a", 1), ("bbbbb", 5), ("cc", 2)] =
    [⟨"a bbbbb", 0, 6, 0, 8⟩, ⟨"a cc", 1, 3, 0, 10⟩] := by decide

/-- The backward overlap walk never reaches its early-exit branch when
it starts within the overlap budget, so the `current_start_char` it
yields is always the `j = -1` fallback `0`. -/
theorem overlapWalk_start_eq_zero (ov : Nat) :
    ∀ (rev : List SentInfo) (acc : Nat) (sel : List String)
      (lastEx : Option SentInfo),
    acc ≤ ov → (overlapWalk ov rev acc sel lastEx).2.2 = 0 := by
  intro rev
  induction rev with
  | nil => intro acc sel lastEx _; rfl
  | cons s rest ih =>
    intro acc sel lastEx h
    simp only [overlapWalk]
    rw [if_pos h]
    split_ifs with h2
    · exact ih _ _ _ h2
    · exact ih _ _ _ h

/-- Every chunk the packing loop emits carries `start_char = 0` when
the running `current_start_char` is `0`: the walk resets it to `0` at
every overflow. -/
theorem chunkGo_start_char_zero (cs ov ms tl cp : Nat) :
    ∀ (remaining prevRev : List SentInfo) (cur : List String)
      (curTok idx : Nat) (acc : List ChunkData),
    (∀ c ∈ acc, c.start_char = 0) →
    ∀ c ∈ chunkGo cs ov ms tl cp remaining prevRev cur curTok 0 idx acc,
      c.start_char = 0 := by
  intro remaining
  induction remaining with
  | nil =>
    intro prevRev cur curTok idx acc hacc c hc
    simp only [chunkGo] at hc
    split_ifs at hc
    · rcases List.mem_append.mp hc with h | h
      · exact hacc c h
      · simp only [List.mem_singleton] at h
        subst h
        rfl
    · exact hacc c hc
  | cons s rest ih =>
    intro prevRev cur curTok idx acc hacc c hc
    simp only [chunkGo] at hc
    split_ifs at hc
    · rw [overlapWalk_start_eq_zero ov prevRev 0 [] none (Nat.zero_le ov)] at hc
      refine ih _ _ _ _ _ ?_ c hc
      intro c' hc'
      rcases List.mem_append.mp hc' with h | h
      · exact hacc c' h
      · simp only [List.mem_singleton] at h
        subst h
        rfl
    · exact ih _ _ _ _ _ hacc c hc

/-- A list of zeros is a non-decreasing chain. -/
theorem chain_le_of_all_zero :
    ∀ (l : List Nat), (∀ x ∈ l, x = 0) → List.Chain' (· ≤ ·) l := by
  intro l
  induction l with
  | nil => intro _; exact List.chain'_nil
  | cons a t ih =>
    intro h
    cases t with
    | nil => exact List.chain'_singleton a
    | cons b t2 =>
      rw [List.chain'_cons]
      refine ⟨?_, ih ?_⟩
      · rw [h a (by simp), h b (by simp)]
      · intro x hx
        exact h x (by simp [hx])

/-- C4: for `overlapTokens = 0` the segments' `start_char` offsets are
non-decreasing in index order.  This holds as stated: in the embedded
code every emitted chunk has `start_char = 0` (the backward walk always
runs to `j = -1` and falls back to `0`), and a constant sequence is
non-decreasing. -/
theorem chunk_offsets_monotone_zero_overlap
    (sents : List (String × Nat)) (cs ms : Nat) :
    List.Chain' (· ≤ ·)
      ((create_chunks_with_overlap cs 0 ms sents).map ChunkData.start_char) := by
  apply chain_le_of_all_zero
  intro x hx
  rcases List.mem_map.mp hx with ⟨c, hc, hcx⟩
  rw [← hcx]
  exact chunkGo_start_char_zero cs 0 ms _ _ _ _ _ _ _ _ (by intro c' hc'; cases hc') c hc

/-- C5 counterexample: with `chunk_size = 2`, `overlap = 0`,
`min_chunk_size = 2` and sentences `"aa"` (2 tokens) and `"b"`
(1 token), the final accumulated segment `["b"]` is below
`min_chunk_size` while an earlier segment exists, so the code drops it:
the produced contents are `["aa"]` and no grouping of the sentence list
reproduces them — sentence `"b"` is absent from the output,
contradicting the claim as stated. -/
theorem chunk_coverage_fails_on_small_tail :
    (create_chunks_with_overlap 2 0 2 [("aa", 2), ("b", 1)]).map ChunkData.content
      = ["aa"] ∧
    ¬ ∃ gs : List (List String),
        gs.flatten = ["aa", "b"] ∧
        (create_chunks_with_overlap 2 0 2 [("aa", 2), ("b", 1)]).map ChunkData.content
          = gs.map (String.intercalate " ") := by
  refine ⟨by decide, ?_⟩
  rintro ⟨gs, hj, hm⟩
  rw [show (create_chunks_with_overlap 2 0 2 [("aa", 2), ("b", 1)]).map ChunkData.content
      = ["aa"] from by decide] at hm
  cases gs with
  | nil => simp at hm
  | cons g t =>
    cases t with
    | nil =>
      simp only [List.flatten_cons, List.flatten_nil, List.append_nil] at hj
      subst hj
      exact absurd hm (by decide)
    | cons g2 t2 => simp at hm

/-- C7 counterexample: the claim's final conjunct says the assembled
context's estimated token count never exceeds `maxContextTokens`.  With
a budget of 101 and one hit whose content is 77 words, the formatted
block estimates to 110 tokens (> 101), the remaining budget 101 is
> 100, and `truncate_text` — applied to the *raw content*, which
estimates to 100 ≤ 101 — returns it unchanged; the full block is
appended and the assembled context estimates to 110 > 101. -/
theorem prepare_context_estimate_exceeds_budget :
    101 < estimate_tokens (prepare_context
      [⟨⟨1, 1, "doc.txt", some 1, String.intercalate " " (List.replicate 77 "a")⟩,
        1, "hybrid"⟩] 101) := by
  set_option maxRecDepth 40000 in decide

/-- The `_prepare_context` loop equals the reference recursion written
from the amended claim, relative to any accumulated parts. -/
theorem prepareContextGo_eq_ref (maxTok : Nat) :
    ∀ (l : List RetrievalResult) (i total : Nat) (parts : List String),
    (prepareContextGo maxTok l i total parts).1 =
      parts ++ prepareContextRef maxTok l i total := by
  intro l
  induction l with
  | nil => intro i total parts; simp [prepareContextGo, prepareContextRef]
  | cons r rest ih =>
    intro i total parts
    simp only [prepareContextGo, prepareContextRef]
    by_cases h : total + estimate_tokens (format_chunk_for_context r.chunk (i + 1)) ≤ maxTok
    · rw [if_neg
          (show ¬ maxTok < total + estimate_tokens (format_chunk_for_context r.chunk (i + 1))
            by omega),
        if_pos h, ih]
      simp
    · rw [if_pos
          (show maxTok < total + estimate_tokens (format_chunk_for_context r.chunk (i + 1))
            by omega),
        if_neg h]
      by_cases h2 : 100 < maxTok - total
      · simp only [if_pos h2]
      · simp only [if_neg h2]
        simp

/-- The running token total of whole appended blocks never exceeds the
budget. -/
theorem prepareContextGo_total_le (maxTok : Nat) :
    ∀ (l : List RetrievalResult) (i total : Nat) (parts : List String),
    total ≤ maxTok → (prepareContextGo maxTok l i total parts).2 ≤ maxTok := by
  intro l
  induction l with
  | nil => intro i total parts h; exact h
  | cons r rest ih =>
    intro i total parts h
    simp only [prepareContextGo]
    split_ifs with h1 h2
    · exact h
    · exact h
    · exact ih _ _ _ (by omega)

/-- C7 (amended): `_prepare_context` appends whole formatted blocks
only while the running estimated total stays within
`maxContextTokens`, and at the first overflow appends the
re-formatted, `truncate_text`-processed block exactly when more than
100 tokens of budget remain, then stops (the equality with the
reference recursion `prepareContextRef` captures the amended
description); the running per-block estimate total never exceeds the
budget.  The claim's further conjunct — that the estimated token count
of the assembled context never exceeds `maxContextTokens` — is false
(see the counterexample): the appended final block is re-wrapped with
its source header, which is not counted against the budget, and
`truncate_text` may even return the content untruncated. -/
theorem prepare_context_matches_amended_spec
    (chunks : List RetrievalResult) (maxTok : Nat) :
    prepare_context chunks maxTok =
      String.intercalate "\n" (prepareContextRef maxTok chunks 0 0) ∧
    (prepareContextGo maxTok chunks 0 0 []).2 ≤ maxTok := by
  constructor
  · unfold prepare_context
    rw [prepareContextGo_eq_ref]
    simp
  · exact prepareContextGo_total_le maxTok chunks 0 0 [] (Nat.zero_le _)

/-- Folding the keyword filter over any index list adds nothing when no
score is positive. -/
theorem foldl_filter_nil (f : Nat → ℚ) (g : Nat → RetrievalResult)
    (h : ∀ i, f i ≤ 0) :
    ∀ (l : List Nat) (acc : List RetrievalResult),
    l.foldl (fun acc idx => if 0 < f idx then acc ++ [g idx] else acc) acc = acc := by
  intro l
  induction l with
  | nil => intro acc; rfl
  | cons x t ih =>
    intro acc
    simp only [List.foldl]
    rw [if_neg (not_lt.mpr (h x))]
    exact ih acc

/-- Every element surviving the keyword filter fold has positive
score. -/
theorem foldl_filter_pos (f : Nat → ℚ) (g : Nat → RetrievalResult)
    (hg : ∀ i, 0 < f i → 0 < (g i).score) :
    ∀ (l : List Nat) (acc : List RetrievalResult),
    (∀ r ∈ acc, 0 < r.score) →
    ∀ r ∈ l.foldl (fun acc idx => if 0 < f idx then acc ++ [g idx] else acc) acc,
      0 < r.score := by
  intro l
  induction l with
  | nil => intro acc hacc r hr; exact hacc r hr
  | cons x t ih =>
    intro acc hacc r hr
    simp only [List.foldl] at hr
    split_ifs at hr with hx
    · refine ih _ ?_ r hr
      intro r' hr'
      rcases List.mem_append.mp hr' with h' | h'
      · exact hacc r' h'
      · simp only [List.mem_singleton] at h'
        subst h'
        exact hg x hx
    · exact ih _ hacc r hr

/-- C8: a query whose BM25 scores are all `≤ 0` yields an empty result
list, and in general no hit with score `≤ 0` ever appears in the
output of `KeywordRetriever.retrieve` (scores are supplied by the
external `rank_bm25` library, so they are a parameter here). -/
theorem keyword_retrieve_filters_nonpositive
    (chunks : List Chunk) (scores : List ℚ) (top_k : Nat) :
    ((∀ s ∈ scores, s ≤ 0) → keywordRetrieve chunks scores top_k = []) ∧
    (∀ r ∈ keywordRetrieve chunks scores top_k, 0 < r.score) := by
  have hscore : (∀ s ∈ scores, s ≤ 0) → ∀ i : Nat, scores.getD i 0 ≤ 0 := by
    intro hs i
    rw [List.getD_eq_getElem?_getD]
    cases hx : scores[i]? with
    | none => simp
    | some x =>
      simp only [Option.getD_some]
      exact hs x (List.getElem?_mem hx)
  constructor
  · intro hs
    unfold keywordRetrieve
    split_ifs with h
    · rfl
    · exact foldl_filter_nil (fun i => scores.getD i 0)
        (fun idx => ⟨chunks.getD idx default, scores.getD idx 0, "keyword"⟩)
        (hscore hs) _ []
  · intro r hr
    unfold keywordRetrieve at hr
    split_ifs at hr
    · cases hr
    · exact foldl_filter_pos (fun i => scores.getD i 0)
        (fun idx => ⟨chunks.getD idx default, scores.getD idx 0, "keyword"⟩)
        (fun i hi => hi) _ [] (by intro r' hr'; cases hr') r hr

/-- C8 witness: two candidates, both BM25 scores nonpositive, empty
output. -/
theorem keyword_retrieve_filters_nonpositive_witness :
    keywordRetrieve
      [⟨1, 1, "a.txt", none, "alpha"⟩, ⟨2, 1, "a.txt", none, "beta"⟩]
      [-1, 0] 5 = [] :=
  (keyword_retrieve_filters_nonpositive
    [⟨1, 1, "a.txt", none, "alpha"⟩, ⟨2, 1, "a.txt", none, "beta"⟩]
    [-1, 0] 5).1 (by decide)

/-- C9: when retrieval returns no candidates, `process_query` returns
(rather than raises) the complete no-results response: the fixed
insufficient-information answer, empty citations, empty used-chunks,
and the generator is never invoked. -/
theorem process_query_no_results (req : QueryRequest)
    (retrieve : String → Nat → Option Nat → List RetrievalResult)
    (maxCtx : Nat) (ragT : ℚ) (gen : String → ℚ → String)
    (h : retrieve req.query req.top_k req.upload_id = []) :
    (processQuery req retrieve maxCtx ragT gen).response.answer = noResultsAnswer ∧
    (processQuery req retrieve maxCtx ragT gen).response.citations = [] ∧
    (processQuery req retrieve maxCtx ragT gen).response.used_chunks = [] ∧
    (processQuery req retrieve maxCtx ragT gen).genCalls = 0 := by
  unfold processQuery
  rw [h]
  simp [createNoResultsResponse]

/-- C9 witness: a concrete request against a retriever that returns
nothing. -/
theorem process_query_no_results_witness :
    (processQuery ⟨"what is ML", none, 10, 1/2, none⟩ (fun _ _ _ => []) 6000 (1/10)
      (fun _ _ => "generated")).response.answer = noResultsAnswer ∧
    (processQuery ⟨"what is ML", none, 10, 1/2, none⟩ (fun _ _ _ => []) 6000 (1/10)
      (fun _ _ => "generated")).response.citations = [] ∧
    (processQuery ⟨"what is ML", none, 10, 1/2, none⟩ (fun _ _ _ => []) 6000 (1/10)
      (fun _ _ => "generated")).response.used_chunks = [] ∧
    (processQuery ⟨"what is ML", none, 10, 1/2, none⟩ (fun _ _ _ => []) 6000 (1/10)
      (fun _ _ => "generated")).genCalls = 0 :=
  process_query_no_results ⟨"what is ML", none, 10, 1/2, none⟩ (fun _ _ _ => [])
    6000 (1/10) (fun _ _ => "generated") rfl

/-- C10: two requests identical except for `mmr_lambda` produce the
same response and the same assembled context (given the same retrieval
and generation functions); the selected chunks are the first `top_k`
retrieved hits (`retrieved[:top_k]` — the embedded `process_query`
contains no call to the MMR selector, mirroring the code), and the two
persisted log records differ only in the `mmr_lambda` field. -/
theorem mmr_lambda_noninterference
    (q : String) (u : Option Nat) (k : Nat) (lam₁ lam₂ : ℚ) (t : Option ℚ)
    (retrieve : String → Nat → Option Nat → List RetrievalResult)
    (maxCtx : Nat) (ragT : ℚ) (gen : String → ℚ → String) :
    (processQuery ⟨q, u, k, lam₁, t⟩ retrieve maxCtx ragT gen).response =
      (processQuery ⟨q, u, k, lam₂, t⟩ retrieve maxCtx ragT gen).response ∧
    (processQuery ⟨q, u, k, lam₁, t⟩ retrieve maxCtx ragT gen).context =
      (processQuery ⟨q, u, k, lam₂, t⟩ retrieve maxCtx ragT gen).context ∧
    (processQuery ⟨q, u, k, lam₁, t⟩ retrieve maxCtx ragT gen).response.used_chunks =
      ((retrieve q k u).take k).map (fun r => ⟨r.chunk.id, r.score, r.method⟩) ∧
    (processQuery ⟨q, u, k, lam₂, t⟩ retrieve maxCtx ragT gen).logged =
      (processQuery ⟨q, u, k, lam₁, t⟩ retrieve maxCtx ragT gen).logged.map
        (fun l => { l with mmr_lambda := lam₂ }) := by
  simp only [processQuery]
  split_ifs with h
  · have he : retrieve q k u = [] := by simpa using h
    rw [he]
    refine ⟨rfl, rfl, ?_, rfl⟩
    simp [createNoResultsResponse]
  · exact ⟨rfl, rfl, rfl, rfl⟩

/-- With zero overlap and every consumed sentence worth at least one
token, the backward walk seeds nothing: zero tokens, no sentences,
start `0`. -/
theorem overlapWalk_zero :
    ∀ (rev : List SentInfo) (lastEx : Option SentInfo),
    (∀ si ∈ rev, 1 ≤ si.tokens) →
    overlapWalk 0 rev 0 [] lastEx = (0, [], 0) := by
  intro rev
  induction rev with
  | nil => intro lastEx _; rfl
  | cons s rest ih =>
    intro lastEx h
    simp only [overlapWalk]
    rw [if_pos (Nat.le_refl 0),
      if_neg (show ¬ 0 + s.tokens ≤ 0 by
        have := h s (List.mem_cons_self s rest)
        omega)]
    exact ih (some s) (fun si hsi => h si (List.mem_cons_of_mem s hsi))

/-- The positioned sentences project back to the input pairs. -/
theorem buildPositionsGo_proj :
    ∀ (sents : List (String × Nat)) (pos tl : Nat),
    ((buildPositionsGo sents pos tl).1).map sentPair = sents := by
  intro sents
  induction sents with
  | nil => intro pos tl; rfl
  | cons s rest ih =>
    intro pos tl
    simp only [buildPositionsGo, List.map_cons, ih]
    simp [sentPair]

/-- Grouping invariant of the packing loop at zero overlap: provided
the current segment mirrors a run `curPairs` of sentence pairs and all
token counts are at least 1, the chunks the loop emits are exactly the
space-joins of consecutive groups of the pending sentences, except
that a trailing group below `min_chunk_size` is dropped when any chunk
exists. -/
theorem chunkGo_cov (cs ms tl cp : Nat) :
    ∀ (remaining prevRev : List SentInfo) (cur : List String)
      (curTok curStart idx : Nat) (acc : List ChunkData)
      (curPairs : List (String × Nat)),
    cur = curPairs.map Prod.fst →
    curTok = sumTokens curPairs →
    (∀ si ∈ remaining, 1 ≤ si.tokens) →
    (∀ si ∈ prevRev, 1 ≤ si.tokens) →
    ∃ gs : List (List (String × Nat)), ∃ tail : List (String × Nat),
      (chunkGo cs 0 ms tl cp remaining prevRev cur curTok curStart idx acc).map
          ChunkData.content =
        acc.map ChunkData.content ++
          gs.map (fun g => String.intercalate " " (g.map Prod.fst)) ∧
      gs.flatten ++ tail = curPairs ++ remaining.map sentPair ∧
      (tail = [] ∨ (sumTokens tail < ms ∧ (acc ≠ [] ∨ gs ≠ []))) := by
  intro remaining
  induction remaining with
  | nil =>
    intro prevRev cur curTok curStart idx acc curPairs hcur htok hr hp
    subst hcur htok
    by_cases hcp : curPairs = []
    · subst hcp
      refine ⟨[], [], ?_, by simp, Or.inl rfl⟩
      simp [chunkGo]
    · have hmapne : curPairs.map Prod.fst ≠ [] := by
        simpa using hcp
      by_cases hms : ms ≤ sumTokens curPairs ∨ acc = []
      · refine ⟨[curPairs], [], ?_, by simp, Or.inl rfl⟩
        simp only [chunkGo, if_pos (And.intro hmapne hms)]
        simp
      · refine ⟨[], curPairs, ?_, by simp, Or.inr ⟨?_, Or.inl ?_⟩⟩
        · simp only [chunkGo, if_neg (show ¬ (curPairs.map Prod.fst ≠ [] ∧
            (ms ≤ sumTokens curPairs ∨ acc = [])) from fun hh => hms hh.2)]
          simp
        · have h4 : ¬ ms ≤ sumTokens curPairs := fun hh => hms (Or.inl hh)
          omega
        · intro hacc
          exact hms (Or.inr hacc)
  | cons s rest ih =>
    intro prevRev cur curTok curStart idx acc curPairs hcur htok hr hp
    subst hcur htok
    have hs : 1 ≤ s.tokens := hr s (List.mem_cons_self s rest)
    have hrest : ∀ si ∈ rest, 1 ≤ si.tokens :=
      fun si hsi => hr si (List.mem_cons_of_mem s hsi)
    have hprev : ∀ si ∈ s :: prevRev, 1 ≤ si.tokens := by
      intro si hsi
      rcases List.mem_cons.mp hsi with h | h
      · subst h
        exact hs
      · exact hp si h
    by_cases hovf : cs < sumTokens curPairs + s.tokens ∧ curPairs.map Prod.fst ≠ []
    · obtain ⟨gs', tail', h1, h2, h3⟩ := ih (s :: prevRev) [s.text] s.tokens 0 (idx + 1)
        (acc ++ [⟨String.intercalate " " (curPairs.map Prod.fst), idx,
          min (sumTokens curPairs) (cs * 12 / 10), curStart, min s.start tl⟩])
        [sentPair s] (by simp [sentPair]) (by simp [sumTokens, sentPair]) hrest hprev
      refine ⟨curPairs :: gs', tail', ?_, ?_, ?_⟩
      · simp only [chunkGo, if_pos hovf, overlapWalk_zero prevRev none hp]
        simp only [List.nil_append, Nat.zero_add]
        rw [h1]
        simp
      · simp only [List.flatten_cons, List.append_assoc, h2]
        simp [sentPair]
      · rcases h3 with h3 | ⟨hlt, _⟩
        · exact Or.inl h3
        · exact Or.inr ⟨hlt, Or.inr (by simp)⟩
    · obtain ⟨gs', tail', h1, h2, h3⟩ := ih (s :: prevRev)
        (curPairs.map Prod.fst ++ [s.text]) (sumTokens curPairs + s.tokens)
        curStart idx acc (curPairs ++ [sentPair s])
        (by simp [sentPair]) (by simp [sumTokens, sentPair]) hrest hprev
      refine ⟨gs', tail', ?_, ?_, h3⟩
      · simp only [chunkGo, if_neg hovf]
        exact h1
      · rw [h2]
        simp [sentPair]

/-- C5 (amended): for zero overlap and sentences of at least one token
each (every non-empty sentence has a positive tiktoken count), the
produced segment contents are exactly the space-joins of consecutive
groups of the sentence list — so concatenating them in index order
reproduces the source sentences — *except* that a trailing run of
sentences whose total token count is below `min_chunk_size` is
dropped when at least one earlier segment exists (the code's
"minimum size requirement" for the final chunk).  The unamended claim
fails on exactly that dropped tail (see the counterexample). -/
theorem chunk_coverage_amended (cs ms : Nat) (sents : List (String × Nat))
    (h : ∀ p ∈ sents, 1 ≤ p.2) :
    ∃ gs : List (List (String × Nat)), ∃ tail : List (String × Nat),
      (create_chunks_with_overlap cs 0 ms sents).map ChunkData.content =
        gs.map (fun g => String.intercalate " " (g.map Prod.fst)) ∧
      gs.flatten ++ tail = sents ∧
      (tail = [] ∨ (sumTokens tail < ms ∧ gs ≠ [])) := by
  have hpos : ∀ si ∈ (buildPositions sents).1, 1 ≤ si.tokens := by
    intro si hsi
    have hm : sentPair si ∈ sents := by
      rw [show sents = ((buildPositionsGo sents 0 0).1).map sentPair from
        (buildPositionsGo_proj sents 0 0).symm]
      exact List.mem_map_of_mem sentPair hsi
    exact h _ hm
  obtain ⟨gs, tail, h1, h2, h3⟩ := chunkGo_cov cs ms (buildPositions sents).2.2
    (buildPositions sents).2.1 (buildPositions sents).1 [] [] 0 0 0 [] []
    rfl rfl hpos (by intro si hsi; cases hsi)
  refine ⟨gs, tail, ?_, ?_, ?_⟩
  · rw [show create_chunks_with_overlap cs 0 ms sents =
      chunkGo cs 0 ms (buildPositions sents).2.2 (buildPositions sents).2.1
        (buildPositions sents).1 [] [] 0 0 0 [] from rfl]
    rw [h1]
    simp
  · rw [h2]
    simp [buildPositions, buildPositionsGo_proj]
  · rcases h3 with h3 | ⟨hlt, hne⟩
    · exact Or.inl h3
    · refine Or.inr ⟨hlt, ?_⟩
      rcases hne with hne | hne
      · exact absurd rfl hne
      · exact hne

/-- C5 witness: two two-token sentences with `chunk_size = 3`,
`min_chunk_size = 1`. -/
theorem chunk_coverage_amended_witness :
    ∃ gs : List (List (String × Nat)), ∃ tail : List (String × Nat),
      (create_chunks_with_overlap 3 0 1 [("aa", 2), ("bb", 2)]).map ChunkData.content =
        gs.map (fun g => String.intercalate " " (g.map Prod.fst)) ∧
      gs.flatten ++ tail = [("aa", 2), ("bb", 2)] ∧
      (tail = [] ∨ (sumTokens tail < 1 ∧ gs ≠ [])) :=
  chunk_coverage_amended 3 1 [("aa", 2), ("bb", 2)] (by decide)

/-- Lookup after a dict assignment. -/
theorem dLookup_dSet (key : Nat) (v : ℚ) (j : Nat) :
    ∀ d : List (Nat × ℚ),
    dLookup (dSet d key v) j = if j = key then some v else dLookup d j := by
  intro d
  induction d with
  | nil =>
    simp only [dSet, dLookup]
    by_cases hj : j = key
    · rw [if_pos (by omega), if_pos hj]
    · rw [if_neg (by omega), if_neg hj]
  | cons p rest ih =>
    simp only [dSet]
    by_cases hp : p.1 = key
    · rw [if_pos hp]
      simp only [dLookup]
      by_cases hj : j = key
      · rw [if_pos (by omega), if_pos hj]
      · rw [if_neg (by omega), if_neg hj, if_neg (by omega)]
    · rw [if_neg hp]
      simp only [dLookup]
      by_cases hpj : p.1 = j
      · rw [if_pos hpj, if_neg (by omega), if_pos hpj]
      · rw [if_neg hpj, ih]
        by_cases hj : j = key
        · rw [if_pos hj, if_pos hj]
        · rw [if_neg hj, if_neg hj, if_neg hpj]

/-- Lookup after a dict accumulate (`+=` on a present key, append
otherwise). -/
theorem dLookup_dAdd (key : Nat) (v : ℚ) (j : Nat) :
    ∀ d : List (Nat × ℚ),
    dLookup (dAdd d key v) j =
      if j = key then some ((dLookup d j).getD 0 + v) else dLookup d j := by
  intro d
  induction d with
  | nil =>
    simp only [dAdd, dLookup]
    by_cases hj : j = key
    · rw [if_pos (by omega), if_pos hj]
      simp
    · rw [if_neg (by omega), if_neg hj]
  | cons p rest ih =>
    simp only [dAdd]
    by_cases hp : p.1 = key
    · rw [if_pos hp]
      simp only [dLookup]
      by_cases hj : j = key
      · rw [if_pos (by omega), if_pos hj, if_pos (by omega)]
        simp
      · rw [if_neg (by omega), if_neg hj, if_neg (by omega)]
    · rw [if_neg hp]
      simp only [dLookup]
      by_cases hpj : p.1 = j
      · rw [if_pos hpj, if_neg (by omega), if_pos hpj]
      · rw [if_neg hpj, ih]
        by_cases hj : j = key
        · rw [if_pos hj, if_pos hj, if_neg hpj]
        · rw [if_neg hj, if_neg hj, if_neg hpj]

/-- A key absent from the front dict looks through an appended tail. -/
theorem dLookup_append_of_none (j : Nat) (e : List (Nat × ℚ)) :
    ∀ d, dLookup d j = none → dLookup (d ++ e) j = dLookup e j := by
  intro d
  induction d with
  | nil => intro _; rfl
  | cons p rest ih =>
    intro h
    simp only [dLookup] at h
    simp only [List.cons_append, dLookup]
    by_cases hpj : p.1 = j
    · rw [if_pos hpj] at h
      exact Option.noConfusion h
    · rw [if_neg hpj] at h
      rw [if_neg hpj]
      exact ih h

/-- A key present in the front dict ignores an appended tail. -/
theorem dLookup_append_of_some (j : Nat) (x : ℚ) (e : List (Nat × ℚ)) :
    ∀ d, dLookup d j = some x → dLookup (d ++ e) j = some x := by
  intro d
  induction d with
  | nil => intro h; exact Option.noConfusion h
  | cons p rest ih =>
    intro h
    simp only [dLookup] at h
    simp only [List.cons_append, dLookup]
    by_cases hpj : p.1 = j
    · rw [if_pos hpj] at h ⊢
      exact h
    · rw [if_neg hpj] at h ⊢
      exact ih h

/-- A `none` lookup means the key is not among the dict's keys. -/
theorem dLookup_none_iff (j : Nat) :
    ∀ d : List (Nat × ℚ), dLookup d j = none ↔ j ∉ d.map Prod.fst := by
  intro d
  induction d with
  | nil => simp [dLookup]
  | cons p rest ih =>
    simp only [dLookup, List.map_cons, List.mem_cons]
    by_cases hpj : p.1 = j
    · rw [if_pos hpj]
      simp [hpj]
    · rw [if_neg hpj, ih]
      constructor
      · intro h hh
        rcases hh with hh | hh
        · exact hpj hh.symm
        · exact h hh
      · intro h hh
        exact h (Or.inr hh)

/-- On a dict with distinct keys, membership determines the lookup. -/
theorem dLookup_eq_some_of_mem (j : Nat) (v : ℚ) :
    ∀ d : List (Nat × ℚ),
    (d.map Prod.fst).Nodup → (j, v) ∈ d → dLookup d j = some v := by
  intro d
  induction d with
  | nil => intro _ h; cases h
  | cons p rest ih =>
    intro hnd hm
    simp only [List.map_cons, List.nodup_cons] at hnd
    obtain ⟨hpn, hnd'⟩ := hnd
    simp only [dLookup]
    rcases List.mem_cons.mp hm with h | h
    · rw [← h]
      simp
    · have hjk : j ∈ rest.map Prod.fst := by
        exact List.mem_map_of_mem Prod.fst h
      rw [if_neg (fun hpj => hpn (by rw [hpj]; exact hjk))]
      exact ih hnd' h

/-- The keys after a dict assignment: unchanged when present, the key
appended when fresh. -/
theorem keys_dSet (key : Nat) (v : ℚ) :
    ∀ d : List (Nat × ℚ),
    (dSet d key v).map Prod.fst =
      if key ∈ d.map Prod.fst then d.map Prod.fst
      else d.map Prod.fst ++ [key] := by
  intro d
  induction d with
  | nil => simp [dSet]
  | cons p rest ih =>
    simp only [dSet]
    by_cases hp : p.1 = key
    · rw [if_pos hp]
      rw [if_pos (by simp [List.mem_cons, hp.symm])]
      simp [hp]
    · rw [if_neg hp]
      simp only [List.map_cons, ih]
      by_cases hmem : key ∈ rest.map Prod.fst
      · rw [if_pos hmem, if_pos (by simp [List.mem_cons, hmem])]
      · rw [if_neg hmem, if_neg (by
          simp only [List.mem_cons]
          rintro (h | h)
          · exact hp h.symm
          · exact hmem h)]
        simp

/-- The keys after a dict accumulate: same shape as assignment. -/
theorem keys_dAdd (key : Nat) (v : ℚ) :
    ∀ d : List (Nat × ℚ),
    (dAdd d key v).map Prod.fst =
      if key ∈ d.map Prod.fst then d.map Prod.fst
      else d.map Prod.fst ++ [key] := by
  intro d
  induction d with
  | nil => simp [dAdd]
  | cons p rest ih =>
    simp only [dAdd]
    by_cases hp : p.1 = key
    · rw [if_pos hp]
      rw [if_pos (by simp [List.mem_cons, hp.symm])]
      simp [hp]
    · rw [if_neg hp]
      simp only [List.map_cons, ih]
      by_cases hmem : key ∈ rest.map Prod.fst
      · rw [if_pos hmem, if_pos (by simp [List.mem_cons, hmem])]
      · rw [if_neg hmem, if_neg (by
          simp only [List.mem_cons]
          rintro (h | h)
          · exact hp h.symm
          · exact hmem h)]
        simp

/-- The keys after a chunk-map assignment (same shape). -/
theorem keys_dSetR (key : Nat) (v : RetrievalResult) :
    ∀ m : List (Nat × RetrievalResult),
    (dSetR m key v).map Prod.fst =
      if key ∈ m.map Prod.fst then m.map Prod.fst
      else m.map Prod.fst ++ [key] := by
  intro m
  induction m with
  | nil => simp [dSetR]
  | cons p rest ih =>
    simp only [dSetR]
    by_cases hp : p.1 = key
    · rw [if_pos hp]
      rw [if_pos (by simp [List.mem_cons, hp.symm])]
      simp [hp]
    · rw [if_neg hp]
      simp only [List.map_cons, ih]
      by_cases hmem : key ∈ rest.map Prod.fst
      · rw [if_pos hmem, if_pos (by simp [List.mem_cons, hmem])]
      · rw [if_neg hmem, if_neg (by
          simp only [List.mem_cons]
          rintro (h | h)
          · exact hp h.symm
          · exact hmem h)]
        simp

/-- Key distinctness survives a dict assignment. -/
theorem nodup_keys_dSet (key : Nat) (v : ℚ) (d : List (Nat × ℚ))
    (h : (d.map Prod.fst).Nodup) : ((dSet d key v).map Prod.fst).Nodup := by
  rw [keys_dSet]
  split_ifs with hmem
  · exact h
  · rw [List.nodup_append]
    refine ⟨h, List.nodup_singleton key, ?_⟩
    intro a ha hb
    simp only [List.mem_singleton] at hb
    subst hb
    exact hmem ha

/-- Key distinctness survives a dict accumulate. -/
theorem nodup_keys_dAdd (key : Nat) (v : ℚ) (d : List (Nat × ℚ))
    (h : (d.map Prod.fst).Nodup) : ((dAdd d key v).map Prod.fst).Nodup := by
  rw [keys_dAdd]
  split_ifs with hmem
  · exact h
  · rw [List.nodup_append]
    refine ⟨h, List.nodup_singleton key, ?_⟩
    intro a ha hb
    simp only [List.mem_singleton] at hb
    subst hb
    exact hmem ha

/-- A Segment absent from a list contributes nothing. -/
theorem rrfContribAux_eq_zero (k j : Nat) :
    ∀ (l : List RetrievalResult) (rank : Nat),
    j ∉ l.map (fun r => r.chunk.id) → rrfContribAux k rank l j = 0 := by
  intro l
  induction l with
  | nil => intro rank _; rfl
  | cons r rest ih =>
    intro rank h
    simp only [List.map_cons, List.mem_cons] at h
    push_neg at h
    simp only [rrfContribAux]
    rw [if_neg (fun hh => h.1 hh.symm)]
    exact ih (rank + 1) h.2

/-- The semantic fold leaves keys outside its list untouched. -/
theorem semFold_lookup_notmem (k j : Nat) :
    ∀ (l : List RetrievalResult) (d : List (Nat × ℚ))
      (m : List (Nat × RetrievalResult)) (rank : Nat),
    (∀ r ∈ l, r.chunk.id ≠ j) →
    dLookup (semFold k l d m rank).1 j = dLookup d j := by
  intro l
  induction l with
  | nil => intro d m rank _; rfl
  | cons r rest ih =>
    intro d m rank h
    simp only [semFold]
    rw [ih _ _ _ (fun r' hr' => h r' (List.mem_cons_of_mem r hr'))]
    rw [dLookup_dSet]
    rw [if_neg (fun hj => h r (List.mem_cons_self r rest) hj.symm)]

/-- The keyword fold leaves keys outside its list untouched. -/
theorem kwFold_lookup_notmem (k j : Nat) :
    ∀ (l : List RetrievalResult) (d : List (Nat × ℚ))
      (m : List (Nat × RetrievalResult)) (rank : Nat),
    (∀ r ∈ l, r.chunk.id ≠ j) →
    dLookup (kwFold k l d m rank).1 j = dLookup d j := by
  intro l
  induction l with
  | nil => intro d m rank _; rfl
  | cons r rest ih =>
    intro d m rank h
    have hne : r.chunk.id ≠ j := h r (List.mem_cons_self r rest)
    have hrest : ∀ r' ∈ rest, r'.chunk.id ≠ j :=
      fun r' hr' => h r' (List.mem_cons_of_mem r hr')
    simp only [kwFold]
    split_ifs with hfound
    · rw [ih _ _ _ hrest, dLookup_dAdd, if_neg (fun hj => hne hj.symm)]
    · rw [ih _ _ _ hrest]
      cases hd : dLookup d j with
      | none =>
        rw [dLookup_append_of_none j _ d hd]
        simp only [dLookup]
        rw [if_neg hne]
      | some x =>
        rw [dLookup_append_of_some j x _ d hd]

/-- Lookup after the semantic fold: a Segment in the list maps to the
weight of its rank, everything else is untouched. -/
theorem semFold_lookup (k j : Nat) :
    ∀ (l : List RetrievalResult) (d : List (Nat × ℚ))
      (m : List (Nat × RetrievalResult)) (rank : Nat),
    (l.map (fun r => r.chunk.id)).Nodup →
    dLookup (semFold k l d m rank).1 j =
      if j ∈ l.map (fun r => r.chunk.id) then some (rrfContribAux k rank l j)
      else dLookup d j := by
  intro l
  induction l with
  | nil => intro d m rank _; simp [semFold]
  | cons r rest ih =>
    intro d m rank hnd
    simp only [List.map_cons, List.nodup_cons] at hnd
    obtain ⟨hnotin, hnd2⟩ := hnd
    simp only [semFold]
    by_cases hj : j = r.chunk.id
    · subst hj
      rw [semFold_lookup_notmem k r.chunk.id rest _ _ _
        (fun r' hr' hj' => hnotin (hj' ▸ List.mem_map_of_mem (fun x => x.chunk.id) hr'))]
      rw [dLookup_dSet]
      rw [if_pos (show r.chunk.id ∈ List.map (fun x => x.chunk.id) (r :: rest) from by simp)]
      simp [rrfContribAux]
    · rw [ih _ _ _ hnd2]
      by_cases hmem : j ∈ rest.map (fun r => r.chunk.id)
      · rw [if_pos hmem, if_pos (by simp [List.mem_cons, hmem])]
        rw [show rrfContribAux k rank (r :: rest) j = rrfContribAux k (rank + 1) rest j from by
          simp only [rrfContribAux]
          rw [if_neg (fun hh => hj hh.symm)]]
      · rw [if_neg hmem, dLookup_dSet, if_neg hj, if_neg (by
          simp only [List.map_cons, List.mem_cons]
          rintro (hh | hh)
          · exact hj hh
          · exact hmem hh)]

/-- Lookup after the keyword fold: a Segment in the list accumulates
the weight of its rank onto whatever was already recorded. -/
theorem kwFold_lookup (k j : Nat) :
    ∀ (l : List RetrievalResult) (d : List (Nat × ℚ))
      (m : List (Nat × RetrievalResult)) (rank : Nat),
    (l.map (fun r => r.chunk.id)).Nodup →
    dLookup (kwFold k l d m rank).1 j =
      if j ∈ l.map (fun r => r.chunk.id)
      then some ((dLookup d j).getD 0 + rrfContribAux k rank l j)
      else dLookup d j := by
  intro l
  induction l with
  | nil => intro d m rank _; simp [kwFold]
  | cons r rest ih =>
    intro d m rank hnd
    simp only [List.map_cons, List.nodup_cons] at hnd
    obtain ⟨hnotin, hnd2⟩ := hnd
    simp only [kwFold]
    by_cases hj : j = r.chunk.id
    · subst hj
      have hrest : ∀ r' ∈ rest, r'.chunk.id ≠ r.chunk.id :=
        fun r' hr' hj' => hnotin (hj' ▸ List.mem_map_of_mem (fun x => x.chunk.id) hr')
      rw [if_pos (show r.chunk.id ∈ List.map (fun x => x.chunk.id) (r :: rest) from by simp)]
      by_cases hfound : (dLookup d r.chunk.id).isSome = true
      · rw [if_pos hfound]
        rw [kwFold_lookup_notmem k r.chunk.id rest _ _ _ hrest]
        rw [dLookup_dAdd]
        simp [rrfContribAux]
      · rw [if_neg hfound]
        have hdn : dLookup d r.chunk.id = none := by
          cases hd : dLookup d r.chunk.id with
          | none => rfl
          | some x => rw [hd] at hfound; exact absurd rfl hfound
        rw [kwFold_lookup_notmem k r.chunk.id rest _ _ _ hrest]
        rw [dLookup_append_of_none r.chunk.id _ d hdn]
        simp [dLookup, hdn, rrfContribAux]
    · have hcontrib : rrfContribAux k rank (r :: rest) j =
          rrfContribAux k (rank + 1) rest j := by
        simp only [rrfContribAux]
        rw [if_neg (fun hh => hj hh.symm)]
      have hmemiff : ∀ hmem : j ∈ rest.map (fun x => x.chunk.id),
          j ∈ List.map (fun x => x.chunk.id) (r :: rest) := by
        intro hmem
        simp only [List.map_cons, List.mem_cons]
        exact Or.inr hmem
      have hnotiff : ∀ _hmem : j ∉ rest.map (fun x => x.chunk.id),
          j ∉ List.map (fun x => x.chunk.id) (r :: rest) := by
        intro hmem
        simp only [List.map_cons, List.mem_cons]
        rintro (hh | hh)
        · exact hj hh
        · exact hmem hh
      by_cases hfound : (dLookup d r.chunk.id).isSome = true
      · rw [if_pos hfound, ih _ _ _ hnd2]
        by_cases hmem : j ∈ rest.map (fun x => x.chunk.id)
        · rw [if_pos hmem, if_pos (hmemiff hmem)]
          rw [dLookup_dAdd, if_neg hj, hcontrib]
        · rw [if_neg hmem, dLookup_dAdd, if_neg hj, if_neg (hnotiff hmem)]
      · rw [if_neg hfound, ih _ _ _ hnd2]
        have hpres : dLookup (d ++ [(r.chunk.id, rrfWeight k rank)]) j = dLookup d j := by
          cases hd : dLookup d j with
          | none =>
            rw [dLookup_append_of_none j _ d hd]
            simp only [dLookup]
            rw [if_neg (fun hh => hj hh.symm)]
          | some x => rw [dLookup_append_of_some j x _ d hd]
        by_cases hmem : j ∈ rest.map (fun x => x.chunk.id)
        · rw [if_pos hmem, if_pos (hmemiff hmem), hpres, hcontrib]
        · rw [if_neg hmem, hpres, if_neg (hnotiff hmem)]

/-- A `some` lookup means the key is among the dict's keys. -/
theorem dLookup_isSome_mem (d : List (Nat × ℚ)) (j : Nat)
    (h : (dLookup d j).isSome = true) : j ∈ d.map Prod.fst := by
  by_contra hn
  rw [(dLookup_none_iff j d).mpr hn] at h
  cases h

/-- Key distinctness survives the semantic fold. -/
theorem nodup_keys_semFold (k : Nat) :
    ∀ (l : List RetrievalResult) (d : List (Nat × ℚ))
      (m : List (Nat × RetrievalResult)) (rank : Nat),
    (d.map Prod.fst).Nodup → ((semFold k l d m rank).1.map Prod.fst).Nodup := by
  intro l
  induction l with
  | nil => intro d m rank h; exact h
  | cons r rest ih =>
    intro d m rank h
    exact ih _ _ _ (nodup_keys_dSet r.chunk.id (rrfWeight k rank) d h)

/-- Key distinctness survives the keyword fold. -/
theorem nodup_keys_kwFold (k : Nat) :
    ∀ (l : List RetrievalResult) (d : List (Nat × ℚ))
      (m : List (Nat × RetrievalResult)) (rank : Nat),
    (d.map Prod.fst).Nodup → ((kwFold k l d m rank).1.map Prod.fst).Nodup := by
  intro l
  induction l with
  | nil => intro d m rank h; exact h
  | cons r rest ih =>
    intro d m rank h
    simp only [kwFold]
    split_ifs with hfound
    · exact ih _ _ _ (nodup_keys_dAdd r.chunk.id (rrfWeight k rank) d h)
    · refine ih _ _ _ ?_
      have hnm : r.chunk.id ∉ d.map Prod.fst := by
        intro hmem
        have hnone : dLookup d r.chunk.id = none := by
          cases hd : dLookup d r.chunk.id with
          | none => rfl
          | some x => rw [hd] at hfound; exact absurd rfl hfound
        exact (dLookup_none_iff r.chunk.id d).mp hnone hmem
      rw [List.map_append, List.nodup_append]
      refine ⟨h, by simp, ?_⟩
      intro a ha hb
      simp only [List.map_cons, List.map_nil, List.mem_singleton] at hb
      subst hb
      exact hnm ha

/-- The score dict and the chunk map hold the same keys after the
semantic fold. -/
theorem keysEq_semFold (k : Nat) :
    ∀ (l : List RetrievalResult) (d : List (Nat × ℚ))
      (m : List (Nat × RetrievalResult)) (rank : Nat),
    d.map Prod.fst = m.map Prod.fst →
    (semFold k l d m rank).1.map Prod.fst =
      (semFold k l d m rank).2.map Prod.fst := by
  intro l
  induction l with
  | nil => intro d m rank h; exact h
  | cons r rest ih =>
    intro d m rank h
    refine ih _ _ _ ?_
    rw [keys_dSet, keys_dSetR, h]

/-- The score dict and the chunk map hold the same keys after the
keyword fold. -/
theorem keysEq_kwFold (k : Nat) :
    ∀ (l : List RetrievalResult) (d : List (Nat × ℚ))
      (m : List (Nat × RetrievalResult)) (rank : Nat),
    d.map Prod.fst = m.map Prod.fst →
    (kwFold k l d m rank).1.map Prod.fst =
      (kwFold k l d m rank).2.map Prod.fst := by
  intro l
  induction l with
  | nil => intro d m rank h; exact h
  | cons r rest ih =>
    intro d m rank h
    simp only [kwFold]
    split_ifs with hfound
    · refine ih _ _ _ ?_
      rw [keys_dAdd, if_pos (dLookup_isSome_mem d r.chunk.id hfound), h]
    · refine ih _ _ _ ?_
      simp [h]

/-- Chunk-map entries always record the result whose chunk id is the
key, once assignments respect that. -/
theorem chunkinv_dSetR (key : Nat) (v : RetrievalResult) (hv : v.chunk.id = key) :
    ∀ m, (∀ p ∈ m, (p.2).chunk.id = p.1) →
    ∀ p ∈ dSetR m key v, (p.2).chunk.id = p.1 := by
  intro m
  induction m with
  | nil =>
    intro _ p hp
    simp only [dSetR, List.mem_singleton] at hp
    subst hp
    exact hv
  | cons q rest ih =>
    intro hinv p hp
    simp only [dSetR] at hp
    split_ifs at hp with hq
    · rcases List.mem_cons.mp hp with h | h
      · subst h
        exact hv
      · exact hinv p (List.mem_cons_of_mem q h)
    · rcases List.mem_cons.mp hp with h | h
      · subst h
        exact hinv p (List.mem_cons_self p rest)
      · exact ih (fun p' hp' => hinv p' (List.mem_cons_of_mem q hp')) p h

/-- The semantic fold preserves the chunk-map invariant. -/
theorem chunkinv_semFold (k : Nat) :
    ∀ (l : List RetrievalResult) (d : List (Nat × ℚ))
      (m : List (Nat × RetrievalResult)) (rank : Nat),
    (∀ p ∈ m, (p.2).chunk.id = p.1) →
    ∀ p ∈ (semFold k l d m rank).2, (p.2).chunk.id = p.1 := by
  intro l
  induction l with
  | nil => intro d m rank h; exact h
  | cons r rest ih =>
    intro d m rank h
    exact ih _ _ _ (chunkinv_dSetR r.chunk.id r rfl m h)

/-- The keyword fold preserves the chunk-map invariant. -/
theorem chunkinv_kwFold (k : Nat) :
    ∀ (l : List RetrievalResult) (d : List (Nat × ℚ))
      (m : List (Nat × RetrievalResult)) (rank : Nat),
    (∀ p ∈ m, (p.2).chunk.id = p.1) →
    ∀ p ∈ (kwFold k l d m rank).2, (p.2).chunk.id = p.1 := by
  intro l
  induction l with
  | nil => intro d m rank h; exact h
  | cons r rest ih =>
    intro d m rank h
    simp only [kwFold]
    split_ifs with hfound
    · exact ih _ _ _ h
    · refine ih _ _ _ ?_
      intro p hp
      rcases List.mem_append.mp hp with hm | hm
      · exact h p hm
      · simp only [List.mem_singleton] at hm
        subst hm
        rfl

/-- A key present in a chunk map satisfying the invariant looks up to
a result whose chunk id is that key. -/
theorem dLookupR_of_inv :
    ∀ (m : List (Nat × RetrievalResult)) (j : Nat),
    (∀ p ∈ m, (p.2).chunk.id = p.1) → j ∈ m.map Prod.fst →
    ∃ r, dLookupR m j = some r ∧ r.chunk.id = j := by
  intro m
  induction m with
  | nil =>
    intro j _ hmem
    simp at hmem
  | cons q rest ih =>
    intro j hinv hmem
    simp only [dLookupR]
    by_cases hq : q.1 = j
    · exact ⟨q.2, by rw [if_pos hq], (hinv q (List.mem_cons_self q rest)).trans hq⟩
    · rw [List.map_cons] at hmem
      rcases List.mem_cons.mp hmem with h | h
      · exact absurd h.symm hq
      · rw [if_neg hq]
        exact ih j (fun p hp => hinv p (List.mem_cons_of_mem q hp)) h

/-- Stable descending insertion permutes a cons. -/
theorem insertDescBy_perm (key : Nat × ℚ → ℚ) (x : Nat × ℚ) :
    ∀ l, List.Perm (insertDescBy key x l) (x :: l) := by
  intro l
  induction l with
  | nil => exact List.Perm.refl _
  | cons y ys ih =>
    simp only [insertDescBy]
    split_ifs
    · exact List.Perm.refl _
    · exact (ih.cons y).trans (List.Perm.swap x y ys)

/-- Python's stable descending sort is a permutation of its input. -/
theorem pySortedDesc_perm : ∀ l, List.Perm (pySortedDesc l) l := by
  intro l
  induction l with
  | nil => exact List.Perm.refl _
  | cons p t ih =>
    exact (insertDescBy_perm _ p (pySortedDesc t)).trans (ih.cons p)

/-- C6: for keyword and semantic hit lists whose Segments are distinct
within each list, every hit emitted by `_reciprocal_rank_fusion`
carries as score the sum, over the lists containing its Segment, of
`1 / (rrfK + rank + 1)` with 0-based rank in list order; and the
claim's concrete instance — the same Segment at rank 0 in both lists
with `rrfK = 60` — fuses to `2/61`. -/
theorem rrf_fused_score_is_sum (k : Nat) (sem kw : List RetrievalResult)
    (hs : (sem.map (fun r => r.chunk.id)).Nodup)
    (hk : (kw.map (fun r => r.chunk.id)).Nodup) :
    (∀ r ∈ reciprocal_rank_fusion k sem kw,
      r.score = rrfContrib k sem r.chunk.id + rrfContrib k kw r.chunk.id) ∧
    reciprocal_rank_fusion 60
        [⟨⟨5, 1, "d.pdf", some 1, "alpha"⟩, 1, "semantic"⟩]
        [⟨⟨5, 1, "d.pdf", some 1, "alpha"⟩, 1, "keyword"⟩] =
      [⟨⟨5, 1, "d.pdf", some 1, "alpha"⟩, 2 / 61, "hybrid"⟩] := by
  constructor
  · intro r hr
    simp only [reciprocal_rank_fusion] at hr
    obtain ⟨p, hp, hpr⟩ := List.mem_map.mp hr
    have hpd : p ∈ (kwFold k kw (semFold k sem [] [] 0).1
        (semFold k sem [] [] 0).2 0).1 :=
      (pySortedDesc_perm _).subset hp
    have hndk : (((kwFold k kw (semFold k sem [] [] 0).1
        (semFold k sem [] [] 0).2 0).1).map Prod.fst).Nodup :=
      nodup_keys_kwFold k kw _ _ 0 (nodup_keys_semFold k sem [] [] 0 (by simp))
    have hlook : dLookup (kwFold k kw (semFold k sem [] [] 0).1
        (semFold k sem [] [] 0).2 0).1 p.1 = some p.2 :=
      dLookup_eq_some_of_mem p.1 p.2 _ hndk hpd
    rw [kwFold_lookup k p.1 kw _ _ 0 hk] at hlook
    have hscore : p.2 = rrfContrib k sem p.1 + rrfContrib k kw p.1 := by
      by_cases hmk : p.1 ∈ kw.map (fun r => r.chunk.id)
      · rw [if_pos hmk, semFold_lookup k p.1 sem [] [] 0 hs] at hlook
        by_cases hms : p.1 ∈ sem.map (fun r => r.chunk.id)
        · rw [if_pos hms] at hlook
          rw [← Option.some.inj hlook]
          simp [rrfContrib]
        · rw [if_neg hms] at hlook
          rw [← Option.some.inj hlook,
            show rrfContrib k sem p.1 = 0 from rrfContribAux_eq_zero k p.1 sem 0 hms]
          simp [rrfContrib, dLookup]
      · rw [if_neg hmk, semFold_lookup k p.1 sem [] [] 0 hs] at hlook
        by_cases hms : p.1 ∈ sem.map (fun r => r.chunk.id)
        · rw [if_pos hms] at hlook
          rw [← Option.some.inj hlook,
            show rrfContrib k kw p.1 = 0 from rrfContribAux_eq_zero k p.1 kw 0 hmk]
          simp [rrfContrib]
        · rw [if_neg hms] at hlook
          exact absurd hlook (by simp [dLookup])
    have hkeysEq : (kwFold k kw (semFold k sem [] [] 0).1
        (semFold k sem [] [] 0).2 0).1.map Prod.fst =
        (kwFold k kw (semFold k sem [] [] 0).1
          (semFold k sem [] [] 0).2 0).2.map Prod.fst :=
      keysEq_kwFold k kw _ _ 0 (keysEq_semFold k sem [] [] 0 rfl)
    have hinv : ∀ q ∈ (kwFold k kw (semFold k sem [] [] 0).1
        (semFold k sem [] [] 0).2 0).2, (q.2).chunk.id = q.1 :=
      chunkinv_kwFold k kw _ _ 0
        (chunkinv_semFold k sem [] [] 0 (by intro q hq; cases hq))
    have hmemk : p.1 ∈ (kwFold k kw (semFold k sem [] [] 0).1
        (semFold k sem [] [] 0).2 0).2.map Prod.fst := by
      rw [← hkeysEq]
      exact List.mem_map_of_mem Prod.fst hpd
    obtain ⟨rr, hrr, hrrid⟩ := dLookupR_of_inv _ p.1 hinv hmemk
    simp only [hrr] at hpr
    rw [← hpr]
    show p.2 = rrfContrib k sem rr.chunk.id + rrfContrib k kw rr.chunk.id
    rw [hrrid]
    exact hscore
  · norm_num [reciprocal_rank_fusion, semFold, kwFold, dSet, dSetR, dLookup,
      dAdd, pySortedDesc, insertDescBy, dLookupR, rrfWeight]

/-- C6 witness: two semantic hits and one keyword hit sharing Segment 2
with the first semantic hit; distinct ids within each list. -/
theorem rrf_fused_score_is_sum_witness :
    (∀ r ∈ reciprocal_rank_fusion 60
        [⟨⟨1, 1, "a.pdf", some 1, "x"⟩, 1, "semantic"⟩,
         ⟨⟨2, 1, "a.pdf", some 1, "y"⟩, 1, "semantic"⟩]
        [⟨⟨2, 1, "a.pdf", some 1, "y"⟩, 1, "keyword"⟩],
      r.score =
        rrfContrib 60
          [⟨⟨1, 1, "a.pdf", some 1, "x"⟩, 1, "semantic"⟩,
           ⟨⟨2, 1, "a.pdf", some 1, "y"⟩, 1, "semantic"⟩] r.chunk.id +
        rrfContrib 60
          [⟨⟨2, 1, "a.pdf", some 1, "y"⟩, 1, "keyword"⟩] r.chunk.id) ∧
    reciprocal_rank_fusion 60
        [⟨⟨5, 1, "d.pdf", some 1, "alpha"⟩, 1, "semantic"⟩]
        [⟨⟨5, 1, "d.pdf", some 1, "alpha"⟩, 1, "keyword"⟩] =
      [⟨⟨5, 1, "d.pdf", some 1, "alpha"⟩, 2 / 61, "hybrid"⟩] :=
  rrf_fused_score_is_sum 60
    [⟨⟨1, 1, "a.pdf", some 1, "x"⟩, 1, "semantic"⟩,
     ⟨⟨2, 1, "a.pdf", some 1, "y"⟩, 1, "semantic"⟩]
    [⟨⟨2, 1, "a.pdf", some 1, "y"⟩, 1, "keyword"⟩]
    (by decide) (by decide)

end RagPipeline
